import Mathlib

/-!
Verification of the `cower` COW-language interpreter (`src/main.rs`).

The development is a shallow embedding of the three pipeline stages of the
program: the lexer `lex`, the structural parser `parse` (index-based
slice-and-recurse, exactly as in the source, including its `skip_next`
behaviour after every `LoopStart`), and the executor `exec`.

Machine integers are modelled as `Nat` with explicit `% 256` where the
source uses `u8` wrapping arithmetic.  The `usize` pointer is a `Nat`;
the debug-build abort on `*ptr -= 1` underflow and the out-of-bounds
panic of `mem[*ptr]` are modelled as `Except.error`.  The possibly
nonterminating `while` of loop execution is modelled with an explicit
fuel parameter (`exec 0 _ _` reports fuel exhaustion); everything else
in `exec` mirrors the source's `match` arms directly.
-/

namespace Cower

/-- Value of the memory array (`MEM_SIZE` in the source). -/
def MEM_SIZE : Nat := 3000

/-- The `Command` enum of the source: the twelve COW opcodes, in source order. -/
inductive Command where
  | LoopEnd    -- "moo"
  | DecPtr     -- "mOo"
  | IncPtr     -- "moO"
  | ExecVal    -- "mOO"
  | RWCond     -- "Moo"
  | DecVal     -- "MOo"
  | IncVal     -- "MoO"
  | LoopStart  -- "MOO"
  | ZeroVal    -- "OOO"
  | RegAccess  -- "MMM"
  | Write      -- "OOM"
  | Read       -- "oom"
deriving DecidableEq, Repr

/-- The `Instruction` enum of the source: the same as `Command` but with loops
collapsed into a recursive `Loop` node and without the loop delimiters. -/
inductive Instruction where
  | DecPtr
  | IncPtr
  | ExecVal
  | RWCond
  | DecVal
  | IncVal
  | ZeroVal
  | RegAccess
  | Write
  | Read
  | Loop (body : List Instruction)

/-- The `Register` struct of the source: a value plus an emptiness flag. -/
structure Register where
  value : Nat
  empty : Bool
deriving DecidableEq, Repr

/-- Token-to-opcode mapping: the `match element` of the source's `lex`,
with the twelve fixed three-character strings as character lists. -/
def commandOfToken (element : List Char) : Option Command :=
  if element = ['m', 'o', 'o'] then some .LoopEnd
  else if element = ['m', 'O', 'o'] then some .DecPtr
  else if element = ['m', 'o', 'O'] then some .IncPtr
  else if element = ['m', 'O', 'O'] then some .ExecVal
  else if element = ['M', 'o', 'o'] then some .RWCond
  else if element = ['M', 'O', 'o'] then some .DecVal
  else if element = ['M', 'o', 'O'] then some .IncVal
  else if element = ['M', 'O', 'O'] then some .LoopStart
  else if element = ['O', 'O', 'O'] then some .ZeroVal
  else if element = ['M', 'M', 'M'] then some .RegAccess
  else if element = ['O', 'O', 'M'] then some .Write
  else if element = ['o', 'o', 'm'] then some .Read
  else none

/-- The `contents.split_whitespace()` of the source: split the character
stream on whitespace, discarding the empty chunks between separators. -/
def splitTokens (contents : List Char) : List (List Char) :=
  (contents.splitOnP fun c => c.isWhitespace).filter fun t => !t.isEmpty

/-- The source's `lex`: tokenize and keep only recognized opcodes
(the `for` loop pushing `Some comm` and dropping `None`). -/
def lex (contents : List Char) : List Command :=
  (splitTokens contents).filterMap commandOfToken

mutual

/-- The source's `parse`: delegates to the index-scanning loop starting
at index 0, with `loop_level = 0`, `loop_start = 0`, `skip_next = false`
and an empty instruction accumulator. -/
def parse (commands : List Command) : Except String (List Instruction) :=
  parseGo commands 0 0 0 false []
termination_by (commands.length, commands.length + 1)
decreasing_by
  apply Prod.Lex.right
  omega

/-- The body of the source's `for i in 0..commands.len()` loop in `parse`,
one call per index `i`.  `commands.get? i = none` is loop exit.  The
`panic!` on an unmatched loop end is an `Except.error`. -/
def parseGo (commands : List Command) (i loop_level loop_start : Nat)
    (skip_next : Bool) (instructions : List Instruction) :
    Except String (List Instruction) :=
  match h : commands.get? i with
  | none => .ok instructions
  | some c =>
    if skip_next then
      parseGo commands (i + 1) loop_level loop_start false instructions
    else if loop_level = 0 then
      match c with
      | .LoopEnd => .error "Loop end with no loop start"
      | .DecPtr =>
        parseGo commands (i + 1) loop_level loop_start false (instructions ++ [.DecPtr])
      | .IncPtr =>
        parseGo commands (i + 1) loop_level loop_start false (instructions ++ [.IncPtr])
      | .ExecVal =>
        parseGo commands (i + 1) loop_level loop_start false (instructions ++ [.ExecVal])
      | .RWCond =>
        parseGo commands (i + 1) loop_level loop_start false (instructions ++ [.RWCond])
      | .DecVal =>
        parseGo commands (i + 1) loop_level loop_start false (instructions ++ [.DecVal])
      | .IncVal =>
        parseGo commands (i + 1) loop_level loop_start false (instructions ++ [.IncVal])
      | .LoopStart =>
        parseGo commands (i + 1) (loop_level + 1) i true instructions
      | .ZeroVal =>
        parseGo commands (i + 1) loop_level loop_start false (instructions ++ [.ZeroVal])
      | .RegAccess =>
        parseGo commands (i + 1) loop_level loop_start false (instructions ++ [.RegAccess])
      | .Write =>
        parseGo commands (i + 1) loop_level loop_start false (instructions ++ [.Write])
      | .Read =>
        parseGo commands (i + 1) loop_level loop_start false (instructions ++ [.Read])
    else
      match c with
      | .LoopStart =>
        parseGo commands (i + 1) (loop_level + 1) loop_start true instructions
      | .LoopEnd =>
        if loop_level - 1 = 0 then
          match parse ((commands.drop (loop_start + 1)).take (i - (loop_start + 1))) with
          | .ok body =>
            parseGo commands (i + 1) (loop_level - 1) loop_start false
              (instructions ++ [.Loop body])
          | .error e => .error e
        else
          parseGo commands (i + 1) (loop_level - 1) loop_start false instructions
      | _ =>
        parseGo commands (i + 1) loop_level loop_start false instructions
termination_by (commands.length, commands.length - i)
decreasing_by
  all_goals
    have hi : i < commands.length := (List.get?_eq_some.mp h).1
  all_goals
    first
    | (apply Prod.Lex.right; omega)
    | (apply Prod.Lex.left
       have hlen : ((commands.drop (loop_start + 1)).take (i - (loop_start + 1))).length
           = min (i - (loop_start + 1)) (commands.length - (loop_start + 1)) := by
         simp [List.length_take, List.length_drop]
       omega)

end

/-- A loop delimiter opcode: `LoopStart` or `LoopEnd`.  These are the two
opcodes that never appear as leaf nodes of the instruction tree. -/
def isDelim : Command → Bool
  | .LoopStart => true
  | .LoopEnd => true
  | _ => false

/-- Standard bracket accounting for loop delimiters: scan the sequence
from nesting depth `n`, `LoopStart` incrementing and `LoopEnd`
decrementing; `none` when a `LoopEnd` occurs at depth 0 (an unmatched
loop end), otherwise the final depth. -/
def bal : List Command → Nat → Option Nat
  | [], n => some n
  | .LoopStart :: r, n => bal r (n + 1)
  | .LoopEnd :: r, n =>
    match n with
    | 0 => none
    | m + 1 => bal r m
  | _ :: r, n => bal r n

/-- Like `bal`, but additionally failing when the depth would return to 0
before the end of the sequence: `balP l 1 = some d` says the scan of `l`
from depth 1 stays strictly positive throughout and ends at depth `d`. -/
def balP : List Command → Nat → Option Nat
  | [], n => some n
  | .LoopStart :: r, n => balP r (n + 1)
  | .LoopEnd :: r, n =>
    match n with
    | 0 => none
    | 1 => none
    | m + 2 => balP r (m + 1)
  | _ :: r, n => balP r n

/-- No loop delimiter directly follows a `LoopStart` anywhere in the
sequence.  On such sequences the parser's unconditional skipping of the
opcode after each `LoopStart` never swallows a delimiter. -/
def noSkipDelim : List Command → Bool
  | .LoopStart :: c :: r => !isDelim c && noSkipDelim (c :: r)
  | _ :: r => noSkipDelim r
  | [] => true

/-- The opcode sequence with the loop delimiters removed: the reference
order against which the round-trip property compares the flattened tree. -/
def stripDelims (commands : List Command) : List Command :=
  commands.filter fun c => !isDelim c

/-- Flattening an instruction tree back to sequential opcode order,
ignoring loop delimiters: each leaf maps to its opcode and a `Loop` node
contributes the flattening of its body. -/
def flatList : List Instruction → List Command
  | [] => []
  | .DecPtr :: r => .DecPtr :: flatList r
  | .IncPtr :: r => .IncPtr :: flatList r
  | .ExecVal :: r => .ExecVal :: flatList r
  | .RWCond :: r => .RWCond :: flatList r
  | .DecVal :: r => .DecVal :: flatList r
  | .IncVal :: r => .IncVal :: flatList r
  | .ZeroVal :: r => .ZeroVal :: flatList r
  | .RegAccess :: r => .RegAccess :: flatList r
  | .Write :: r => .Write :: flatList r
  | .Read :: r => .Read :: flatList r
  | .Loop body :: r => flatList body ++ flatList r

/-- The image of a non-delimiter opcode under the parser's depth-0
one-to-one mapping from commands to instructions (`none` on the two loop
delimiters). -/
def simpleInstr : Command → Option Instruction
  | .LoopEnd => none
  | .DecPtr => some .DecPtr
  | .IncPtr => some .IncPtr
  | .ExecVal => some .ExecVal
  | .RWCond => some .RWCond
  | .DecVal => some .DecVal
  | .IncVal => some .IncVal
  | .LoopStart => none
  | .ZeroVal => some .ZeroVal
  | .RegAccess => some .RegAccess
  | .Write => some .Write
  | .Read => some .Read

/-- The mutable state threaded through the source's `exec`: the memory
vector, the pointer, the register, plus the two I/O streams (stdin as the
list of bytes still unread, stdout as the list of bytes written so far). -/
structure ExecState where
  mem : List Nat
  ptr : Nat
  reg : Register
  stdin : List Nat
  output : List Nat
deriving DecidableEq, Repr

/-- Reading `mem[*ptr]`: a Rust index panic when the pointer is out of
bounds, the cell value otherwise. -/
def memGet (st : ExecState) : Except String Nat :=
  if h : st.ptr < st.mem.length then .ok (st.mem.get ⟨st.ptr, h⟩)
  else .error "index out of bounds"

/-- Writing `mem[*ptr] = v`: a Rust index panic when the pointer is out of
bounds, the updated state otherwise. -/
def memSet (v : Nat) (st : ExecState) : Except String ExecState :=
  if st.ptr < st.mem.length then .ok { st with mem := st.mem.set st.ptr v }
  else .error "index out of bounds"

/-- What `print!("\x7b\x7d", mem[*ptr])` sends to stdout: the decimal
rendering of the cell value, as a list of ASCII bytes (`"3"` is the one
byte 51, `"65"` is the two bytes 54 and 53). -/
def decOut (v : Nat) : List Nat :=
  (Nat.toDigits 10 v).map Char.toNat

/-- The source's `exec`, with an explicit fuel bound to make the possibly
nonterminating `while mem[*ptr] != 0` loop a total function; every
recursive call consumes one unit of fuel.  `*ptr -= 1` at pointer 0 is
the debug-build integer-underflow abort.  `todo!()` for `ExecVal` is the
"not yet implemented" panic. -/
def exec : Nat → List Instruction → ExecState → Except String ExecState
  | 0, _, _ => .error "out of fuel"
  | _ + 1, [], st => .ok st
  | fuel + 1, instr :: rest, st =>
    match instr with
    | .DecPtr =>
      if st.ptr = 0 then .error "attempt to subtract with overflow"
      else exec fuel rest { st with ptr := st.ptr - 1 }
    | .IncPtr => exec fuel rest { st with ptr := st.ptr + 1 }
    | .ExecVal => .error "not yet implemented"
    | .RWCond =>
      match memGet st with
      | .error e => .error e
      | .ok v =>
        if v = 0 then
          match st.stdin with
          | [] => .error "stdin read failed"
          | b :: bs =>
            match memSet b { st with stdin := bs } with
            | .error e => .error e
            | .ok st' => exec fuel rest st'
        else exec fuel rest { st with output := st.output ++ decOut v }
    | .DecVal =>
      match memGet st with
      | .error e => .error e
      | .ok v =>
        match memSet ((v + 255) % 256) st with
        | .error e => .error e
        | .ok st' => exec fuel rest st'
    | .IncVal =>
      match memGet st with
      | .error e => .error e
      | .ok v =>
        match memSet ((v + 1) % 256) st with
        | .error e => .error e
        | .ok st' => exec fuel rest st'
    | .ZeroVal =>
      match memSet 0 st with
      | .error e => .error e
      | .ok st' => exec fuel rest st'
    | .RegAccess =>
      if st.reg.empty then
        match memGet st with
        | .error e => .error e
        | .ok v => exec fuel rest { st with reg := ⟨v, false⟩ }
      else
        match memSet st.reg.value st with
        | .error e => .error e
        | .ok st' => exec fuel rest { st' with reg := ⟨st.reg.value, true⟩ }
    | .Write =>
      match memGet st with
      | .error e => .error e
      | .ok v => exec fuel rest { st with output := st.output ++ decOut v }
    | .Read =>
      match st.stdin with
      | [] => .error "stdin read failed"
      | b :: bs =>
        match memSet b { st with stdin := bs } with
        | .error e => .error e
        | .ok st' => exec fuel rest st'
    | .Loop body =>
      match memGet st with
      | .error e => .error e
      | .ok v =>
        if v = 0 then exec fuel rest st
        else
          match exec fuel body st with
          | .error e => .error e
          | .ok st' => exec fuel (Instruction.Loop body :: rest) st'

/-- The fresh state `main` builds before executing: a zeroed tape of
`MEM_SIZE` cells, pointer 0, an empty register, untouched input, empty
output. -/
def initState (stdin : List Nat) : ExecState :=
  ⟨List.replicate MEM_SIZE 0, 0, ⟨0, true⟩, stdin, []⟩

/-- The pipeline of `main` starting from an opcode sequence: parse, then
execute against the fresh state (with the given execution fuel). -/
def runCommands (fuel : Nat) (commands : List Command) (stdin : List Nat) :
    Except String ExecState :=
  match parse commands with
  | .error e => .error e
  | .ok instructions => exec fuel instructions (initState stdin)

/-- The full pipeline of `main` from source text: lex, parse, execute. -/
def run (fuel : Nat) (contents : List Char) (stdin : List Nat) :
    Except String ExecState :=
  runCommands fuel (lex contents) stdin

/-- Unfolding `parseGo` past the end of the opcode sequence: the scan
stops and returns the accumulated instructions. -/
theorem pg_none {commands : List Command} {i loop_level loop_start : Nat}
    {skip_next : Bool} {instructions : List Instruction}
    (h : commands.get? i = none) :
    parseGo commands i loop_level loop_start skip_next instructions = .ok instructions := by
  rw [parseGo.eq_def]
  split
  · rfl
  · rename_i c heq
    rw [h] at heq
    exact absurd heq (by simp)

/-- Unfolding `parseGo` with `skip_next` set: the opcode at index `i` is
consumed without being inspected. -/
theorem pg_skip {commands : List Command} {i loop_level loop_start : Nat}
    {instructions : List Instruction} {c : Command}
    (h : commands.get? i = some c) :
    parseGo commands i loop_level loop_start true instructions
      = parseGo commands (i + 1) loop_level loop_start false instructions := by
  rw [parseGo.eq_def]
  split
  · rename_i heq; rw [h] at heq; exact absurd heq (by simp)
  · simp

/-- Unfolding `parseGo` at depth 0 on a non-delimiter opcode: it is
appended to the output one-to-one. -/
theorem pg0_simple {commands : List Command} {i loop_start : Nat}
    {instructions : List Instruction} {c : Command} {ins : Instruction}
    (h : commands.get? i = some c) (hins : simpleInstr c = some ins) :
    parseGo commands i 0 loop_start false instructions
      = parseGo commands (i + 1) 0 loop_start false (instructions ++ [ins]) := by
  rw [parseGo.eq_def]
  split
  · rename_i heq; rw [h] at heq; exact absurd heq (by simp)
  · rename_i c' heq
    rw [h] at heq
    obtain rfl : c = c' := Option.some.inj heq
    cases c <;> simp_all [simpleInstr]

/-- Unfolding `parseGo` at depth 0 on a `LoopStart`: the depth becomes 1,
the opening index is recorded, the next opcode is marked to be skipped,
and nothing is appended. -/
theorem pg0_LS {commands : List Command} {i loop_start : Nat}
    {instructions : List Instruction}
    (h : commands.get? i = some .LoopStart) :
    parseGo commands i 0 loop_start false instructions
      = parseGo commands (i + 1) 1 i true instructions := by
  rw [parseGo.eq_def]
  split
  · rename_i heq; rw [h] at heq; exact absurd heq (by simp)
  · rename_i c' heq
    rw [h] at heq
    obtain rfl : Command.LoopStart = c' := Option.some.inj heq
    simp

/-- Unfolding `parseGo` at depth 0 on a `LoopEnd`: the fatal structural
error of the source's `panic!`. -/
theorem pg0_LE {commands : List Command} {i loop_start : Nat}
    {instructions : List Instruction}
    (h : commands.get? i = some .LoopEnd) :
    parseGo commands i 0 loop_start false instructions
      = .error "Loop end with no loop start" := by
  rw [parseGo.eq_def]
  split
  · rename_i heq; rw [h] at heq; exact absurd heq (by simp)
  · rename_i c' heq
    rw [h] at heq
    obtain rfl : Command.LoopEnd = c' := Option.some.inj heq
    simp

/-- Unfolding `parseGo` at positive depth on a `LoopStart`: the depth is
incremented, the next opcode is marked to be skipped, and the recorded
opening index is untouched. -/
theorem pgP_LS {commands : List Command} {i l loop_start : Nat}
    {instructions : List Instruction}
    (h : commands.get? i = some .LoopStart) :
    parseGo commands i (l + 1) loop_start false instructions
      = parseGo commands (i + 1) (l + 2) loop_start true instructions := by
  rw [parseGo.eq_def]
  split
  · rename_i heq; rw [h] at heq; exact absurd heq (by simp)
  · rename_i c' heq
    rw [h] at heq
    obtain rfl : Command.LoopStart = c' := Option.some.inj heq
    simp

/-- Unfolding `parseGo` at depth 1 on a `LoopEnd`: the loop closes, the
slice strictly between the recorded opening index and `i` is recursively
parsed and wrapped into a `Loop` node, and the scan continues at depth 0. -/
theorem pgP_LE_close {commands : List Command} {i loop_start : Nat}
    {instructions : List Instruction}
    (h : commands.get? i = some .LoopEnd) :
    parseGo commands i 1 loop_start false instructions
      = match parse ((commands.drop (loop_start + 1)).take (i - (loop_start + 1))) with
        | .ok body =>
          parseGo commands (i + 1) 0 loop_start false (instructions ++ [.Loop body])
        | .error e => .error e := by
  rw [parseGo.eq_def]
  split
  · rename_i heq; rw [h] at heq; exact absurd heq (by simp)
  · rename_i c' heq
    rw [h] at heq
    obtain rfl : Command.LoopEnd = c' := Option.some.inj heq
    simp

/-- Unfolding `parseGo` at depth at least 2 on a `LoopEnd`: the depth is
just decremented. -/
theorem pgP_LE_inner {commands : List Command} {i l loop_start : Nat}
    {instructions : List Instruction}
    (h : commands.get? i = some .LoopEnd) :
    parseGo commands i (l + 2) loop_start false instructions
      = parseGo commands (i + 1) (l + 1) loop_start false instructions := by
  rw [parseGo.eq_def]
  split
  · rename_i heq; rw [h] at heq; exact absurd heq (by simp)
  · rename_i c' heq
    rw [h] at heq
    obtain rfl : Command.LoopEnd = c' := Option.some.inj heq
    simp

/-- Unfolding `parseGo` at positive depth on a non-delimiter opcode: it
is skipped over at this level. -/
theorem pgP_other {commands : List Command} {i l loop_start : Nat}
    {instructions : List Instruction} {c : Command}
    (h : commands.get? i = some c) (hc : isDelim c = false) :
    parseGo commands i (l + 1) loop_start false instructions
      = parseGo commands (i + 1) (l + 1) loop_start false instructions := by
  rw [parseGo.eq_def]
  split
  · rename_i heq; rw [h] at heq; exact absurd heq (by simp)
  · rename_i c' heq
    rw [h] at heq
    obtain rfl : c = c' := Option.some.inj heq
    cases c <;> simp_all [isDelim]

/-- Unfolding the top-level `parse` to the index scan. -/
theorem parse_def (commands : List Command) :
    parse commands = parseGo commands 0 0 0 false [] := by
  rw [parse]

/-- Depth accounting distributes over concatenation. -/
theorem bal_append (xs ys : List Command) :
    ∀ n, bal (xs ++ ys) n = (bal xs n).bind fun m => bal ys m := by
  induction xs with
  | nil => intro n; simp [bal]
  | cons c r ih =>
    intro n
    cases c <;> simp only [List.cons_append, bal] <;>
      first
      | exact ih n
      | exact ih (n + 1)
      | (cases n with
         | zero => simp
         | succ m => exact ih m)

/-- Strictly positive depth accounting distributes over concatenation. -/
theorem balP_append (xs ys : List Command) :
    ∀ n, balP (xs ++ ys) n = (balP xs n).bind fun m => balP ys m := by
  induction xs with
  | nil => intro n; simp [balP]
  | cons c r ih =>
    intro n
    cases c <;> simp only [List.cons_append, balP] <;>
      first
      | exact ih n
      | exact ih (n + 1)
      | (match n with
         | 0 => simp
         | 1 => simp
         | m + 2 => exact ih (m + 1))

/-- A scan that stays strictly positive from depth `n + 1` also scans
cleanly from depth `n`, one lower throughout. -/
theorem balP_imp_bal :
    ∀ (l : List Command) (n m : Nat), balP l (n + 1) = some (m + 1) → bal l n = some m := by
  intro l
  induction l with
  | nil =>
    intro n m h
    simp [balP] at h
    simp [bal, h]
  | cons c r ih =>
    intro n m h
    cases c <;> simp only [balP, bal] at h ⊢ <;>
      first
      | exact ih n m h
      | exact ih (n + 1) m h
      | (match n, h with
         | n + 1, h => exact ih n m h)

/-- `noSkipDelim` passes to the tail. -/
theorem noSkipDelim_tail {c : Command} {r : List Command}
    (h : noSkipDelim (c :: r) = true) : noSkipDelim r = true := by
  cases c <;> cases r <;> simp_all [noSkipDelim]

/-- `noSkipDelim` passes to any suffix. -/
theorem noSkipDelim_drop {l : List Command} (h : noSkipDelim l = true) :
    ∀ k, noSkipDelim (l.drop k) = true := by
  induction l with
  | nil => intro k; simpa using h
  | cons c r ih =>
    intro k
    cases k with
    | zero => exact h
    | succ k => exact ih (noSkipDelim_tail h) k

/-- `noSkipDelim` passes to any prefix. -/
theorem noSkipDelim_take :
    ∀ (l : List Command) (k : Nat), noSkipDelim l = true → noSkipDelim (l.take k) = true := by
  intro l
  induction l with
  | nil => intro k _; simp [noSkipDelim]
  | cons c r ih =>
    intro k h
    cases k with
    | zero => simp [noSkipDelim]
    | succ k =>
      rw [List.take_succ_cons]
      cases c <;>
        first
        | simpa [noSkipDelim] using ih k (noSkipDelim_tail h)
        | (cases r with
           | nil => simp [noSkipDelim]
           | cons c' r' =>
             have hc : isDelim c' = false ∧ noSkipDelim (c' :: r') = true := by
               simpa [noSkipDelim, Bool.and_eq_true] using h
             cases k with
             | zero => simp [noSkipDelim]
             | succ k =>
               rw [List.take_succ_cons]
               have h3 := ih (k + 1) hc.2
               rw [List.take_succ_cons] at h3
               simpa [noSkipDelim, hc.1] using h3)

/-- Adjacent pair extraction from `noSkipDelim`: whatever opcode directly
follows a `LoopStart` is not a delimiter. -/
theorem noSkipDelim_pair :
    ∀ (l : List Command) (i : Nat) (c : Command),
      noSkipDelim l = true → l.get? i = some .LoopStart → l.get? (i + 1) = some c →
      isDelim c = false := by
  intro l
  induction l with
  | nil => intro i c _ h1 _; simp at h1
  | cons a r ih =>
    intro i c h h1 h2
    cases i with
    | zero =>
      cases r with
      | nil => simp at h2
      | cons c' r' =>
        have ha : a = Command.LoopStart := by simpa using h1
        have hcc : c' = c := by simpa using h2
        rw [ha] at h
        have hc : isDelim c' = false ∧ noSkipDelim (c' :: r') = true := by
          simpa [noSkipDelim, Bool.and_eq_true] using h
        rw [← hcc]
        exact hc.1
    | succ i =>
      exact ih i c (noSkipDelim_tail h) (by simpa using h1) (by simpa using h2)

/-- Non-delimiters do not change the depth accounting. -/
theorem bal_cons_nondelim {c : Command} {r : List Command} (h : isDelim c = false) :
    ∀ n, bal (c :: r) n = bal r n := by
  intro n
  cases c <;> simp_all [isDelim, bal]

/-- Non-delimiters do not change the strictly positive depth accounting. -/
theorem balP_cons_nondelim {c : Command} {r : List Command} (h : isDelim c = false) :
    ∀ n, balP (c :: r) n = balP r n := by
  intro n
  cases c <;> simp_all [isDelim, balP]

/-- A `LoopStart` raises the depth. -/
theorem bal_cons_LS (r : List Command) (n : Nat) :
    bal (.LoopStart :: r) n = bal r (n + 1) := rfl

/-- A `LoopEnd` at positive depth lowers the depth. -/
theorem bal_cons_LE (r : List Command) (m : Nat) :
    bal (.LoopEnd :: r) (m + 1) = bal r m := rfl

/-- A `LoopEnd` at depth 0 is an unmatched loop end. -/
theorem bal_cons_LE_zero (r : List Command) : bal (.LoopEnd :: r) 0 = none := rfl

/-- A `LoopStart` raises the strictly positive depth accounting. -/
theorem balP_cons_LS (r : List Command) (n : Nat) :
    balP (.LoopStart :: r) n = balP r (n + 1) := rfl

/-- A `LoopEnd` at depth at least 2 lowers the strictly positive depth
accounting without reaching 0. -/
theorem balP_cons_LE (r : List Command) (m : Nat) :
    balP (.LoopEnd :: r) (m + 2) = balP r (m + 1) := rfl

/-- The suffix beyond the end of the list is empty. -/
theorem drop_of_get?_none {l : List Command} {i : Nat} (h : l.get? i = none) :
    l.drop i = [] :=
  List.drop_eq_nil_of_le (List.get?_eq_none.mp h)

/-- Decomposing a suffix at a known element. -/
theorem drop_cons_of_get {l : List Command} {i : Nat} {c : Command}
    (h : l.get? i = some c) : l.drop i = c :: l.drop (i + 1) := by
  obtain ⟨hlt, hget⟩ := List.get?_eq_some.mp h
  rw [List.drop_eq_get_cons hlt, hget]

/-- Extending a parsed slice by the element under scan. -/
theorem take_extend {l : List Command} {a i : Nat} {c : Command}
    (ha : a ≤ i) (h : l.get? i = some c) :
    (l.drop a).take (i + 1 - a) = (l.drop a).take (i - a) ++ [c] := by
  have h1 : i + 1 - a = (i - a) + 1 := by omega
  have h2 : (l.drop a).get? (i - a) = some c := by
    rw [List.get?_drop]
    rw [show a + (i - a) = i by omega]
    exact h
  rw [h1, List.take_succ]
  have h2' : (l.drop a)[i - a]? = some c := by
    rw [List.getElem?_drop]
    rw [show a + (i - a) = i by omega]
    simpa [← List.get?_eq_getElem?] using h
  rw [h2']
  rfl

/-- A suffix is its initial slice up to `i` followed by the suffix from `i`. -/
theorem take_drop_concat {l : List Command} {a i : Nat} (ha : a ≤ i) :
    (l.drop a).take (i - a) ++ l.drop i = l.drop a := by
  have h2 : (l.drop a).drop (i - a) = l.drop i := by
    rw [List.drop_drop]
    rw [show a + (i - a) = i by omega]
  rw [← h2, List.take_append_drop]

/-- Flattening distributes over concatenation. -/
theorem flatList_append :
    ∀ (xs ys : List Instruction), flatList (xs ++ ys) = flatList xs ++ flatList ys := by
  intro xs
  induction xs with
  | nil => intro ys; simp [flatList]
  | cons i r ih =>
    intro ys
    cases i <;> simp [flatList, ih, List.append_assoc]

/-- A non-delimiter opcode flattens back to itself. -/
theorem flatList_simpleInstr {c : Command} {ins : Instruction}
    (h : simpleInstr c = some ins) : flatList [ins] = [c] := by
  cases c <;> simp_all [simpleInstr] <;> simp [← h, flatList]

/-- A non-delimiter opcode has an instruction image. -/
theorem simpleInstr_of_not_delim {c : Command} (h : isDelim c = false) :
    ∃ ins, simpleInstr c = some ins := by
  cases c <;> simp_all [isDelim, simpleInstr]

/-- The image of an opcode, when it exists, is of a non-delimiter. -/
theorem not_delim_of_simpleInstr {c : Command} {ins : Instruction}
    (h : simpleInstr c = some ins) : isDelim c = false := by
  cases c <;> simp_all [isDelim, simpleInstr]

/-- Delimiter stripping distributes over concatenation. -/
theorem stripDelims_append (xs ys : List Command) :
    stripDelims (xs ++ ys) = stripDelims xs ++ stripDelims ys := by
  simp [stripDelims]

/-- Delimiter stripping drops a delimiter head. -/
theorem stripDelims_cons_delim {c : Command} {r : List Command} (h : isDelim c = true) :
    stripDelims (c :: r) = stripDelims r := by
  simp [stripDelims, h]

/-- Delimiter stripping keeps a non-delimiter head. -/
theorem stripDelims_cons {c : Command} {r : List Command} (h : isDelim c = false) :
    stripDelims (c :: r) = c :: stripDelims r := by
  simp [stripDelims, h]

/-- A delimiter is either a `LoopStart` or a `LoopEnd`. -/
theorem eq_of_isDelim {c : Command} (h : isDelim c = true) :
    c = .LoopStart ∨ c = .LoopEnd := by
  cases c <;> simp_all [isDelim]

/-- Main scan invariant of the parser on inputs where no delimiter
directly follows a `LoopStart`.  Clause one: from a depth-0 state whose
remaining suffix is well nested, the scan succeeds and the flattening of
what it appends is the suffix with delimiters removed.  Clause two: from
a depth-`l+1` state whose already-scanned loop body keeps the depth
strictly positive and whose remaining suffix closes everything cleanly,
the scan succeeds and the flattening of what it appends is everything
after the recorded opening index, delimiters removed. -/
theorem parseGo_inv (N : Nat) :
    ∀ (commands : List Command), commands.length ≤ N →
    ∀ (n i loop_start : Nat) (acc : List Instruction),
      commands.length - i ≤ n →
      noSkipDelim commands = true →
      (bal (commands.drop i) 0 = some 0 →
        ∃ out, parseGo commands i 0 loop_start false acc = .ok (acc ++ out) ∧
          flatList out = stripDelims (commands.drop i))
      ∧
      (∀ l, loop_start + 1 ≤ i →
        balP ((commands.drop (loop_start + 1)).take (i - (loop_start + 1))) 1 = some (l + 1) →
        bal (commands.drop i) (l + 1) = some 0 →
        ∃ out, parseGo commands i (l + 1) loop_start false acc = .ok (acc ++ out) ∧
          flatList out = stripDelims (commands.drop (loop_start + 1))) := by
  induction N with
  | zero =>
    intro commands hlen n i loop_start acc _ _
    have hc : commands = [] := List.eq_nil_of_length_eq_zero (by omega)
    subst hc
    constructor
    · intro _
      refine ⟨[], ?_, ?_⟩
      · rw [pg_none (by simp), List.append_nil]
      · simp [flatList, stripDelims]
    · intro l _ _ hbal
      simp [bal] at hbal
  | succ N ihN =>
    intro commands hlen n
    induction n with
    | zero =>
      intro i loop_start acc hn _
      have hnone : commands.get? i = none := List.get?_eq_none.mpr (by omega)
      have hdrop : commands.drop i = [] := drop_of_get?_none hnone
      constructor
      · intro _
        refine ⟨[], ?_, ?_⟩
        · rw [pg_none hnone, List.append_nil]
        · simp [hdrop, flatList, stripDelims]
      · intro l _ _ hbal
        rw [hdrop] at hbal
        simp [bal] at hbal
    | succ n ihn =>
      intro i loop_start acc hn hnds
      match hget : commands.get? i with
      | none =>
        have hdrop : commands.drop i = [] := drop_of_get?_none hget
        constructor
        · intro _
          refine ⟨[], ?_, ?_⟩
          · rw [pg_none hget, List.append_nil]
          · simp [hdrop, flatList, stripDelims]
        · intro l _ _ hbal
          rw [hdrop] at hbal
          simp [bal] at hbal
      | some c =>
        have hi : i < commands.length := (List.get?_eq_some.mp hget).1
        have hdrop : commands.drop i = c :: commands.drop (i + 1) := drop_cons_of_get hget
        constructor
        · -- depth-0 clause
          intro hbal
          rw [hdrop] at hbal
          cases hdel : isDelim c with
          | false =>
            obtain ⟨ins, hins⟩ := simpleInstr_of_not_delim hdel
            rw [bal_cons_nondelim hdel] at hbal
            rw [pg0_simple hget hins]
            obtain ⟨out, heq, hflat⟩ :=
              ((ihn (i + 1) loop_start (acc ++ [ins]) (by omega) hnds).1) hbal
            refine ⟨[ins] ++ out, by rw [heq, List.append_assoc], ?_⟩
            rw [flatList_append, hflat, flatList_simpleInstr hins, hdrop,
              stripDelims_cons hdel]
            rfl
          | true =>
            rcases eq_of_isDelim hdel with rfl | rfl
            · rw [bal_cons_LS] at hbal
              rw [pg0_LS hget]
              match hget1 : commands.get? (i + 1) with
              | none =>
                rw [drop_of_get?_none hget1] at hbal
                simp [bal] at hbal
              | some c' =>
                have hc' : isDelim c' = false := noSkipDelim_pair commands i c' hnds hget hget1
                have hdrop1 : commands.drop (i + 1) = c' :: commands.drop (i + 2) :=
                  drop_cons_of_get hget1
                rw [hdrop1, bal_cons_nondelim hc'] at hbal
                rw [pg_skip hget1]
                have hB : (commands.drop (i + 1)).take (i + 2 - (i + 1)) = [c'] := by
                  rw [hdrop1]
                  simp
                obtain ⟨out, heq, hflat⟩ :=
                  ((ihn (i + 2) i acc (by omega) hnds).2) 0 (by omega)
                    (by rw [hB, balP_cons_nondelim hc']; rfl)
                    hbal
                refine ⟨out, heq, ?_⟩
                rw [hflat, hdrop, stripDelims_cons_delim (by rfl)]
            · rw [bal_cons_LE_zero] at hbal
              exact absurd hbal (by simp)
        · -- positive-depth clause
          intro l hls hbalP hbal
          rw [hdrop] at hbal
          cases hdel : isDelim c with
          | false =>
            rw [bal_cons_nondelim hdel] at hbal
            rw [pgP_other hget hdel]
            have hB1 : (commands.drop (loop_start + 1)).take (i + 1 - (loop_start + 1))
                = (commands.drop (loop_start + 1)).take (i - (loop_start + 1))
                  ++ [c] := take_extend hls hget
            obtain ⟨out, heq, hflat⟩ :=
              ((ihn (i + 1) loop_start acc (by omega) hnds).2) l (by omega)
                (by
                  rw [hB1]
                  simp [balP_append, hbalP, balP_cons_nondelim hdel, balP])
                hbal
            exact ⟨out, heq, hflat⟩
          | true =>
            rcases eq_of_isDelim hdel with rfl | rfl
            · rw [bal_cons_LS] at hbal
              rw [pgP_LS hget]
              match hget1 : commands.get? (i + 1) with
              | none =>
                rw [drop_of_get?_none hget1] at hbal
                simp [bal] at hbal
              | some c' =>
                have hc' : isDelim c' = false := noSkipDelim_pair commands i c' hnds hget hget1
                have hdrop1 : commands.drop (i + 1) = c' :: commands.drop (i + 2) :=
                  drop_cons_of_get hget1
                rw [hdrop1, bal_cons_nondelim hc'] at hbal
                rw [pg_skip hget1]
                have hB1 : (commands.drop (loop_start + 1)).take (i + 1 - (loop_start + 1))
                    = (commands.drop (loop_start + 1)).take (i - (loop_start + 1))
                      ++ [Command.LoopStart] := take_extend hls hget
                have hB2 : (commands.drop (loop_start + 1)).take (i + 2 - (loop_start + 1))
                    = (commands.drop (loop_start + 1)).take (i + 1 - (loop_start + 1))
                      ++ [c'] := take_extend (by omega) hget1
                obtain ⟨out, heq, hflat⟩ :=
                  ((ihn (i + 2) loop_start acc (by omega) hnds).2) (l + 1) (by omega)
                    (by
                      rw [hB2, hB1]
                      simp [balP_append, hbalP, balP_cons_LS,
                        balP_cons_nondelim hc', balP])
                    hbal
                exact ⟨out, heq, hflat⟩
            · cases l with
              | zero =>
                rw [bal_cons_LE] at hbal
                rw [pgP_LE_close hget]
                have hBnds : noSkipDelim
                    ((commands.drop (loop_start + 1)).take (i - (loop_start + 1))) = true :=
                  noSkipDelim_take _ _ (noSkipDelim_drop hnds (loop_start + 1))
                have hBbal : bal
                    ((commands.drop (loop_start + 1)).take (i - (loop_start + 1))) 0
                    = some 0 := balP_imp_bal _ 0 0 hbalP
                have hBlen :
                    ((commands.drop (loop_start + 1)).take (i - (loop_start + 1))).length ≤ N := by
                  rw [List.length_take, List.length_drop]
                  omega
                obtain ⟨body, hbodyeq, hbodyflat⟩ :=
                  ((ihN _ hBlen _ 0 0 [] (le_refl _) hBnds).1) hBbal
                rw [List.nil_append] at hbodyeq
                rw [parse_def, hbodyeq]
                obtain ⟨out2, heq2, hflat2⟩ :=
                  ((ihn (i + 1) loop_start (acc ++ [.Loop body]) (by omega) hnds).1) hbal
                refine ⟨[.Loop body] ++ out2, ?_, ?_⟩
                · show parseGo commands (i + 1) 0 loop_start false (acc ++ [.Loop body])
                      = Except.ok (acc ++ ([Instruction.Loop body] ++ out2))
                  rw [heq2, List.append_assoc]
                · have hsplit : stripDelims (commands.drop (loop_start + 1))
                      = stripDelims ((commands.drop (loop_start + 1)).take (i - (loop_start + 1)))
                        ++ stripDelims (commands.drop i) := by
                    conv_lhs => rw [← take_drop_concat hls]
                    rw [stripDelims_append]
                  rw [flatList_append, hflat2, hsplit, hdrop,
                    stripDelims_cons_delim (by rfl)]
                  simp [flatList, hbodyflat]
              | succ l' =>
                rw [bal_cons_LE] at hbal
                rw [pgP_LE_inner hget]
                have hB1 : (commands.drop (loop_start + 1)).take (i + 1 - (loop_start + 1))
                    = (commands.drop (loop_start + 1)).take (i - (loop_start + 1))
                      ++ [Command.LoopEnd] := take_extend hls hget
                obtain ⟨out, heq, hflat⟩ :=
                  ((ihn (i + 1) loop_start acc (by omega) hnds).2) l' (by omega)
                    (by
                      rw [hB1, balP_append, hbalP]
                      simp [balP])
                    hbal
                exact ⟨out, heq, hflat⟩

/-- Every error the parser can produce carries the one panic message of
the source's `parse`. -/
theorem parseGo_error_msg (N : Nat) :
    ∀ (commands : List Command), commands.length ≤ N →
    ∀ (n i loop_level loop_start : Nat) (sk : Bool) (acc : List Instruction) (e : String),
      commands.length - i ≤ n →
      parseGo commands i loop_level loop_start sk acc = .error e →
      e = "Loop end with no loop start" := by
  induction N with
  | zero =>
    intro commands hlen n i lvl ls sk acc e hn herr
    rw [pg_none (List.get?_eq_none.mpr (by omega))] at herr
    exact absurd herr (by simp)
  | succ N ihN =>
    intro commands hlen n
    induction n with
    | zero =>
      intro i lvl ls sk acc e hn herr
      rw [pg_none (List.get?_eq_none.mpr (by omega))] at herr
      exact absurd herr (by simp)
    | succ n ihn =>
      intro i lvl ls sk acc e hn herr
      match hget : commands.get? i with
      | none =>
        rw [pg_none hget] at herr
        exact absurd herr (by simp)
      | some c =>
        have hi : i < commands.length := (List.get?_eq_some.mp hget).1
        cases sk with
        | true =>
          rw [pg_skip hget] at herr
          exact ihn (i + 1) lvl ls false acc e (by omega) herr
        | false =>
          cases lvl with
          | zero =>
            cases hdel : isDelim c with
            | false =>
              obtain ⟨ins, hins⟩ := simpleInstr_of_not_delim hdel
              rw [pg0_simple hget hins] at herr
              exact ihn (i + 1) 0 ls false (acc ++ [ins]) e (by omega) herr
            | true =>
              rcases eq_of_isDelim hdel with rfl | rfl
              · rw [pg0_LS hget] at herr
                exact ihn (i + 1) 1 i true acc e (by omega) herr
              · rw [pg0_LE hget] at herr
                exact (Except.error.inj herr).symm
          | succ l =>
            cases hdel : isDelim c with
            | false =>
              rw [pgP_other hget hdel] at herr
              exact ihn (i + 1) (l + 1) ls false acc e (by omega) herr
            | true =>
              rcases eq_of_isDelim hdel with rfl | rfl
              · rw [pgP_LS hget] at herr
                exact ihn (i + 1) (l + 2) ls true acc e (by omega) herr
              · cases l with
                | zero =>
                  rw [pgP_LE_close hget] at herr
                  match hp : parse ((commands.drop (ls + 1)).take (i - (ls + 1))) with
                  | .ok body =>
                    rw [hp] at herr
                    exact ihn (i + 1) 0 ls false (acc ++ [.Loop body]) e (by omega) herr
                  | .error e2 =>
                    rw [hp] at herr
                    have herr2 : (Except.error e2 : Except String (List Instruction))
                        = .error e := herr
                    have hplen :
                        ((commands.drop (ls + 1)).take (i - (ls + 1))).length ≤ N := by
                      rw [List.length_take, List.length_drop]
                      omega
                    rw [parse_def] at hp
                    rw [← Except.error.inj herr2]
                    exact ihN _ hplen _ 0 0 0 false [] e2 (le_refl _) hp
                | succ l2 =>
                  rw [pgP_LE_inner hget] at herr
                  exact ihn (i + 1) (l2 + 1) ls false acc e (by omega) herr

/-- Error invariant of the parser on inputs where no delimiter directly
follows a `LoopStart`: whenever the depth accounting of the remaining
suffix hits an unmatched `LoopEnd`, the scan aborts with an error. -/
theorem parseGo_err (N : Nat) :
    ∀ (commands : List Command), commands.length ≤ N →
    ∀ (n i loop_start : Nat) (acc : List Instruction),
      commands.length - i ≤ n →
      noSkipDelim commands = true →
      (bal (commands.drop i) 0 = none →
        ∃ e, parseGo commands i 0 loop_start false acc = .error e)
      ∧
      (∀ l, bal (commands.drop i) (l + 1) = none →
        ∃ e, parseGo commands i (l + 1) loop_start false acc = .error e) := by
  induction N with
  | zero =>
    intro commands hlen n i loop_start acc _ _
    have hc : commands = [] := List.eq_nil_of_length_eq_zero (by omega)
    subst hc
    constructor
    · intro hbal
      simp [bal] at hbal
    · intro l hbal
      simp [bal] at hbal
  | succ N ihN =>
    intro commands hlen n
    induction n with
    | zero =>
      intro i loop_start acc hn _
      have hdrop : commands.drop i = [] :=
        drop_of_get?_none (List.get?_eq_none.mpr (by omega))
      constructor
      · intro hbal
        rw [hdrop] at hbal
        simp [bal] at hbal
      · intro l hbal
        rw [hdrop] at hbal
        simp [bal] at hbal
    | succ n ihn =>
      intro i loop_start acc hn hnds
      match hget : commands.get? i with
      | none =>
        have hdrop : commands.drop i = [] := drop_of_get?_none hget
        constructor
        · intro hbal
          rw [hdrop] at hbal
          simp [bal] at hbal
        · intro l hbal
          rw [hdrop] at hbal
          simp [bal] at hbal
      | some c =>
        have hi : i < commands.length := (List.get?_eq_some.mp hget).1
        have hdrop : commands.drop i = c :: commands.drop (i + 1) := drop_cons_of_get hget
        constructor
        · intro hbal
          rw [hdrop] at hbal
          cases hdel : isDelim c with
          | false =>
            rw [bal_cons_nondelim hdel] at hbal
            obtain ⟨ins, hins⟩ := simpleInstr_of_not_delim hdel
            rw [pg0_simple hget hins]
            exact ((ihn (i + 1) loop_start (acc ++ [ins]) (by omega) hnds).1) hbal
          | true =>
            rcases eq_of_isDelim hdel with rfl | rfl
            · rw [bal_cons_LS] at hbal
              rw [pg0_LS hget]
              match hget1 : commands.get? (i + 1) with
              | none =>
                rw [drop_of_get?_none hget1] at hbal
                simp [bal] at hbal
              | some c2 =>
                have hc2 : isDelim c2 = false := noSkipDelim_pair commands i c2 hnds hget hget1
                rw [drop_cons_of_get hget1, bal_cons_nondelim hc2] at hbal
                rw [pg_skip hget1]
                exact ((ihn (i + 2) i acc (by omega) hnds).2) 0 hbal
            · exact ⟨_, pg0_LE hget⟩
        · intro l hbal
          rw [hdrop] at hbal
          cases hdel : isDelim c with
          | false =>
            rw [bal_cons_nondelim hdel] at hbal
            rw [pgP_other hget hdel]
            exact ((ihn (i + 1) loop_start acc (by omega) hnds).2) l hbal
          | true =>
            rcases eq_of_isDelim hdel with rfl | rfl
            · rw [bal_cons_LS] at hbal
              rw [pgP_LS hget]
              match hget1 : commands.get? (i + 1) with
              | none =>
                rw [drop_of_get?_none hget1] at hbal
                simp [bal] at hbal
              | some c2 =>
                have hc2 : isDelim c2 = false := noSkipDelim_pair commands i c2 hnds hget hget1
                rw [drop_cons_of_get hget1, bal_cons_nondelim hc2] at hbal
                rw [pg_skip hget1]
                exact ((ihn (i + 2) loop_start acc (by omega) hnds).2) (l + 1) hbal
            · cases l with
              | zero =>
                rw [bal_cons_LE] at hbal
                rw [pgP_LE_close hget]
                match hp : parse ((commands.drop (loop_start + 1)).take (i - (loop_start + 1))) with
                | .ok body =>
                  obtain ⟨e, he⟩ :=
                    ((ihn (i + 1) loop_start (acc ++ [.Loop body]) (by omega) hnds).1) hbal
                  exact ⟨e, he⟩
                | .error e2 => exact ⟨e2, rfl⟩
              | succ l2 =>
                rw [bal_cons_LE] at hbal
                rw [pgP_LE_inner hget]
                exact ((ihn (i + 1) loop_start acc (by omega) hnds).2) l2 hbal

/-- Setting a cell to its own value is the identity. -/
theorem set_get_self :
    ∀ (l : List Nat) (i : Nat) (h : i < l.length), l.set i (l.get ⟨i, h⟩) = l := by
  intro l
  induction l with
  | nil => intro i h; simp at h
  | cons a r ih =>
    intro i h
    cases i with
    | zero => simp
    | succ i => simpa using ih i (by simpa using h)

/-- Setting one cell leaves every other position unchanged. -/
theorem getD_set_ne (l : List Nat) (i j v : Nat) (h : i ≠ j) :
    (l.set i v).getD j 0 = l.getD j 0 := by
  rw [List.getD_eq_getElem?_getD, List.getD_eq_getElem?_getD, List.getElem?_set_ne h]

/-- A successful `mem[*ptr]` read means the pointer is in bounds and the
value is the cell content. -/
theorem memGet_ok {st : ExecState} {v : Nat} (h : memGet st = .ok v) :
    ∃ hlt : st.ptr < st.mem.length, st.mem.get ⟨st.ptr, hlt⟩ = v := by
  by_cases hlt : st.ptr < st.mem.length
  · refine ⟨hlt, ?_⟩
    simpa [memGet, hlt] using h
  · simp [memGet, hlt] at h

/-- Executor step: an exhausted instruction sequence returns. -/
theorem exec_nil (fuel : Nat) (st : ExecState) : exec (fuel + 1) [] st = .ok st := rfl

/-- Executor step: `DecPtr` at pointer 0 aborts. -/
theorem exec_DecPtr_zero {fuel : Nat} {rest : List Instruction} {st : ExecState}
    (h : st.ptr = 0) :
    exec (fuel + 1) (.DecPtr :: rest) st = .error "attempt to subtract with overflow" := by
  simp [exec, h]

/-- Executor step: `DecPtr` at a positive pointer moves it back one. -/
theorem exec_DecPtr_pos {fuel : Nat} {rest : List Instruction} {st : ExecState}
    (h : st.ptr ≠ 0) :
    exec (fuel + 1) (.DecPtr :: rest) st = exec fuel rest { st with ptr := st.ptr - 1 } := by
  simp [exec, h]

/-- Executor step: `IncPtr` moves the pointer forward one, unconditionally. -/
theorem exec_IncPtr (fuel : Nat) (rest : List Instruction) (st : ExecState) :
    exec (fuel + 1) (.IncPtr :: rest) st = exec fuel rest { st with ptr := st.ptr + 1 } := by
  simp [exec]

/-- Executor step: `IncVal` wraps the cell up by one. -/
theorem exec_IncVal {fuel : Nat} {rest : List Instruction} {st : ExecState} {v : Nat}
    (hget : memGet st = .ok v) (hlt : st.ptr < st.mem.length) :
    exec (fuel + 1) (.IncVal :: rest) st
      = exec fuel rest { st with mem := st.mem.set st.ptr ((v + 1) % 256) } := by
  simp [exec, hget, memSet, hlt]

/-- Executor step: `DecVal` wraps the cell down by one. -/
theorem exec_DecVal {fuel : Nat} {rest : List Instruction} {st : ExecState} {v : Nat}
    (hget : memGet st = .ok v) (hlt : st.ptr < st.mem.length) :
    exec (fuel + 1) (.DecVal :: rest) st
      = exec fuel rest { st with mem := st.mem.set st.ptr ((v + 255) % 256) } := by
  simp [exec, hget, memSet, hlt]

/-- Executor step: `ZeroVal` clears the cell. -/
theorem exec_ZeroVal {fuel : Nat} {rest : List Instruction} {st : ExecState}
    (hlt : st.ptr < st.mem.length) :
    exec (fuel + 1) (.ZeroVal :: rest) st
      = exec fuel rest { st with mem := st.mem.set st.ptr 0 } := by
  simp [exec, memSet, hlt]

/-- Executor step: `Read` consumes one stdin byte into the cell. -/
theorem exec_Read {fuel : Nat} {rest : List Instruction} {st : ExecState} {b : Nat}
    {bs : List Nat} (hin : st.stdin = b :: bs) (hlt : st.ptr < st.mem.length) :
    exec (fuel + 1) (.Read :: rest) st
      = exec fuel rest { st with mem := st.mem.set st.ptr b, stdin := bs } := by
  simp [exec, hin, memSet, hlt]

/-- Executor step: `Write` appends the decimal rendering of the cell to
the output. -/
theorem exec_Write {fuel : Nat} {rest : List Instruction} {st : ExecState} {v : Nat}
    (hget : memGet st = .ok v) :
    exec (fuel + 1) (.Write :: rest) st
      = exec fuel rest { st with output := st.output ++ decOut v } := by
  simp [exec, hget]

/-- Executor step: `RegAccess` with an empty register captures the cell. -/
theorem exec_RegAccess_empty {fuel : Nat} {rest : List Instruction} {st : ExecState}
    {v : Nat} (hreg : st.reg.empty = true) (hget : memGet st = .ok v) :
    exec (fuel + 1) (.RegAccess :: rest) st
      = exec fuel rest { st with reg := ⟨v, false⟩ } := by
  simp [exec, hreg, hget]

/-- Executor step: `RegAccess` with a filled register writes it back and
empties it. -/
theorem exec_RegAccess_full {fuel : Nat} {rest : List Instruction} {st : ExecState}
    (hreg : st.reg.empty = false) (hlt : st.ptr < st.mem.length) :
    exec (fuel + 1) (.RegAccess :: rest) st
      = exec fuel rest
          { st with mem := st.mem.set st.ptr st.reg.value, reg := ⟨st.reg.value, true⟩ } := by
  simp [exec, hreg, memSet, hlt]

/-- Iterating `IncVal` `k` times adds `k` to the cell modulo 256. -/
theorem exec_IncVal_iter :
    ∀ (k : Nat) (st : ExecState) (v : Nat), memGet st = .ok v → v < 256 →
      exec (k + 1) (List.replicate k .IncVal) st
        = .ok { st with mem := st.mem.set st.ptr ((v + k) % 256) } := by
  intro k
  induction k with
  | zero =>
    intro st v hget hv
    obtain ⟨hlt, hvv⟩ := memGet_ok hget
    rw [show (v + 0) % 256 = v by omega]
    rw [← hvv, set_get_self]
    rfl
  | succ k ih =>
    intro st v hget hv
    obtain ⟨hlt, hvv⟩ := memGet_ok hget
    rw [List.replicate_succ, exec_IncVal hget hlt]
    have hget2 : memGet { st with mem := st.mem.set st.ptr ((v + 1) % 256) }
        = .ok ((v + 1) % 256) := by
      simp [memGet, hlt, List.getElem_set]
    rw [ih _ _ hget2 (by omega)]
    have harith : ((v + 1) % 256 + k) % 256 = (v + (k + 1)) % 256 := by
      rw [Nat.mod_add_mod]
      omega
    simp [List.set_set, harith]

/-- C1 counterexample: the opcode sequence `LoopStart LoopEnd ValueInc`
is well nested (the one `LoopStart` is matched by the following
`LoopEnd`, and there is no unmatched marker), yet the parser -- which
unconditionally skips the opcode after the `LoopStart`, here the
`LoopEnd` -- returns an empty tree, losing the trailing `ValueInc`:
flattening does not reproduce the non-delimiter opcode order. -/
theorem c1_counterexample :
    bal [Command.LoopStart, Command.LoopEnd, Command.IncVal] 0 = some 0 ∧
    parse [Command.LoopStart, Command.LoopEnd, Command.IncVal] = .ok [] ∧
    flatList [] ≠ stripDelims [Command.LoopStart, Command.LoopEnd, Command.IncVal] := by
  refine ⟨by decide, ?_, by simp [flatList, stripDelims, isDelim]⟩
  rw [parse_def, pg0_LS (by rfl), pg_skip (by rfl), pgP_other (by rfl) (by rfl),
    pg_none (by rfl)]

/-- C1 (amended): for every well-nested opcode sequence in which no loop
delimiter directly follows a `LoopStart` (so the parser's unconditional
skip after each `LoopStart` only ever swallows a non-delimiter),
flattening the instruction tree produced by `parse` back to sequential
opcode order, ignoring loop delimiters, reproduces exactly the
non-loop-delimiter-opcode order of the input sequence. -/
theorem c1_roundtrip_amended (commands : List Command)
    (hwn : bal commands 0 = some 0) (hnds : noSkipDelim commands = true) :
    ∃ instructions, parse commands = .ok instructions ∧
      flatList instructions = stripDelims commands := by
  obtain ⟨out, heq, hflat⟩ :=
    ((parseGo_inv commands.length commands (le_refl _) commands.length 0 0 []
      (by omega) hnds).1) (by simpa using hwn)
  refine ⟨out, ?_, ?_⟩
  · rw [parse_def, heq, List.nil_append]
  · simpa using hflat

/-- C1 witness: the round-trip theorem applied to the concrete well-nested
sequence `LoopStart ValueInc LoopEnd WriteByte`. -/
theorem c1_roundtrip_witness :
    bal [Command.LoopStart, Command.IncVal, Command.LoopEnd, Command.Write] 0 = some 0 ∧
    noSkipDelim [Command.LoopStart, Command.IncVal, Command.LoopEnd, Command.Write] = true ∧
    ∃ instructions,
      parse [Command.LoopStart, Command.IncVal, Command.LoopEnd, Command.Write]
        = .ok instructions ∧
      flatList instructions
        = stripDelims [Command.LoopStart, Command.IncVal, Command.LoopEnd, Command.Write] :=
  ⟨by decide, by decide, c1_roundtrip_amended _ (by decide) (by decide)⟩

/-- C4 counterexample: in `LoopStart LoopEnd LoopStart LoopEnd LoopEnd`
the final `LoopEnd` sits at nesting depth 0 (standard bracket matching:
the first two pairs match, the last `LoopEnd` is unmatched), yet the
parser raises no error at all: both skipped opcodes are delimiters, the
depth accounting is thrown off, and the scan ends quietly with an empty
tree. -/
theorem c4_counterexample :
    bal [Command.LoopStart, Command.LoopEnd, Command.LoopStart, Command.LoopEnd,
      Command.LoopEnd] 0 = none ∧
    parse [Command.LoopStart, Command.LoopEnd, Command.LoopStart, Command.LoopEnd,
      Command.LoopEnd] = .ok [] := by
  refine ⟨by decide, ?_⟩
  rw [parse_def, pg0_LS (by rfl), pg_skip (by rfl), pgP_LS (by rfl), pg_skip (by rfl),
    pgP_LE_inner (by rfl), pg_none (by rfl)]

/-- C4 (amended): for every opcode sequence in which no loop delimiter
directly follows a `LoopStart`, containing a `LoopEnd` at nesting depth
0, `parse` fails with the fatal structural error "Loop end with no loop
start", and the whole pipeline aborts with that error before any
execution; in particular the source `"moo"` alone fails at parse time. -/
theorem c4_unmatched_end_amended :
    (∀ (commands : List Command), noSkipDelim commands = true → bal commands 0 = none →
      parse commands = .error "Loop end with no loop start" ∧
      ∀ (fuel : Nat) (stdin : List Nat),
        runCommands fuel commands stdin = .error "Loop end with no loop start")
    ∧ parse (lex "moo".toList) = .error "Loop end with no loop start" := by
  constructor
  · intro commands hnds hbal
    have hperr : parse commands = .error "Loop end with no loop start" := by
      obtain ⟨e, he⟩ :=
        ((parseGo_err commands.length commands (le_refl _) commands.length 0 0 []
          (by omega) hnds).1) (by simpa using hbal)
      have hmsg := parseGo_error_msg commands.length commands (le_refl _)
        commands.length 0 0 0 false [] e (by omega) he
      rw [parse_def, he, hmsg]
    refine ⟨hperr, ?_⟩
    intro fuel stdin
    rw [runCommands, hperr]
  · have hlex : lex "moo".toList = [Command.LoopEnd] := by decide
    rw [hlex, parse_def, pg0_LE (by rfl)]

/-- C4 witness: the amended theorem applied to the concrete sequence
`ValueInc LoopEnd`, whose `LoopEnd` is unmatched. -/
theorem c4_unmatched_end_witness :
    noSkipDelim [Command.IncVal, Command.LoopEnd] = true ∧
    bal [Command.IncVal, Command.LoopEnd] 0 = none ∧
    (parse [Command.IncVal, Command.LoopEnd] = .error "Loop end with no loop start" ∧
      ∀ (fuel : Nat) (stdin : List Nat),
        runCommands fuel [Command.IncVal, Command.LoopEnd] stdin
          = .error "Loop end with no loop start") :=
  ⟨by decide, by decide, c4_unmatched_end_amended.1 _ (by decide) (by decide)⟩

/-- C9: the parser never inspects the opcode at the index directly after
a `LoopStart` at its own scan level: any opcode under an active
`skip_next` flag is consumed blindly, and both `LoopStart` arms set that
flag; in particular a `LoopEnd` placed directly after a `LoopStart` does
not decrement the nesting depth and does not close that loop (the
sequence `LoopStart LoopEnd` parses to an empty tree instead of one
containing an empty `Loop` node). -/
theorem c9_skip_next :
    (∀ (commands : List Command) (i loop_level loop_start : Nat)
        (acc : List Instruction) (c : Command),
      commands.get? i = some c →
      parseGo commands i loop_level loop_start true acc
        = parseGo commands (i + 1) loop_level loop_start false acc)
    ∧ (∀ (commands : List Command) (i loop_start : Nat) (acc : List Instruction),
      commands.get? i = some .LoopStart →
      parseGo commands i 0 loop_start false acc
        = parseGo commands (i + 1) 1 i true acc)
    ∧ (∀ (commands : List Command) (i l loop_start : Nat) (acc : List Instruction),
      commands.get? i = some .LoopStart →
      parseGo commands i (l + 1) loop_start false acc
        = parseGo commands (i + 1) (l + 2) loop_start true acc)
    ∧ parse [Command.LoopStart, Command.LoopEnd] = .ok [] := by
  refine ⟨fun commands i lvl ls acc c h => pg_skip h,
    fun commands i ls acc h => pg0_LS h,
    fun commands i l ls acc h => pgP_LS h, ?_⟩
  rw [parse_def, pg0_LS (by rfl), pg_skip (by rfl), pg_none (by rfl)]

/-- C9 witness: the skip clause applied to the concrete state scanning
`LoopStart LoopEnd` at index 1 with the skip flag set: the `LoopEnd` is
consumed without being inspected. -/
theorem c9_skip_next_witness :
    [Command.LoopStart, Command.LoopEnd].get? 1 = some Command.LoopEnd ∧
    parseGo [Command.LoopStart, Command.LoopEnd] 1 1 0 true []
      = parseGo [Command.LoopStart, Command.LoopEnd] 2 1 0 false [] :=
  ⟨by decide, c9_skip_next.1 [Command.LoopStart, Command.LoopEnd] 1 1 0 []
    Command.LoopEnd rfl⟩

/-- C3 counterexample: executing `PointerInc` with the pointer at the
tape's last valid index (2999 on the 3000-cell tape) is not a fatal
condition at that instruction: it completes normally, merely leaving the
pointer out of bounds at 3000. -/
theorem c3_counterexample :
    MEM_SIZE = 3000 ∧
    exec 2 [.IncPtr] ⟨List.replicate 3000 0, 2999, ⟨0, true⟩, [], []⟩
      = .ok ⟨List.replicate 3000 0, 3000, ⟨0, true⟩, [], []⟩ :=
  ⟨rfl, rfl⟩

/-- C3 (amended): executing `PointerDec` when the pointer is 0 is a fatal
condition at that instruction (the debug-build `usize` underflow abort);
in every other state `PointerDec` decrements the pointer by exactly 1.
`PointerInc` always increments the pointer by exactly 1 and never faults
at that instruction, even at the tape's last valid index; the fault for
an out-of-bounds pointer is deferred to the next instruction that
accesses the tape. -/
theorem c3_pointer_amended (st : ExecState) :
    (st.ptr = 0 → exec 2 [.DecPtr] st = .error "attempt to subtract with overflow") ∧
    (st.ptr ≠ 0 → exec 2 [.DecPtr] st = .ok { st with ptr := st.ptr - 1 }) ∧
    exec 2 [.IncPtr] st = .ok { st with ptr := st.ptr + 1 } ∧
    (st.mem.length ≤ st.ptr → exec 2 [.IncVal] st = .error "index out of bounds") := by
  refine ⟨?_, ?_, ?_, ?_⟩
  · intro h
    exact exec_DecPtr_zero h
  · intro h
    rw [show (2 : Nat) = 1 + 1 from rfl, exec_DecPtr_pos h, exec_nil]
  · rw [show (2 : Nat) = 1 + 1 from rfl, exec_IncPtr, exec_nil]
  · intro h
    have hmg : memGet st = .error "index out of bounds" := by
      simp [memGet, show ¬ st.ptr < st.mem.length by omega]
    show exec (1 + 1) _ _ = _
    simp [exec, hmg]

/-- C3 witness: the amended theorem applied at pointer 0 (fatal
decrement), at pointer 5 (ordinary decrement and increment), and at an
out-of-bounds pointer (the deferred tape-access fault). -/
theorem c3_pointer_witness :
    exec 2 [.DecPtr] ⟨[0], 0, ⟨0, true⟩, [], []⟩
      = .error "attempt to subtract with overflow" ∧
    exec 2 [.DecPtr] ⟨[0], 5, ⟨0, true⟩, [], []⟩ = .ok ⟨[0], 4, ⟨0, true⟩, [], []⟩ ∧
    exec 2 [.IncPtr] ⟨[0], 5, ⟨0, true⟩, [], []⟩ = .ok ⟨[0], 6, ⟨0, true⟩, [], []⟩ ∧
    exec 2 [.IncVal] ⟨[0], 5, ⟨0, true⟩, [], []⟩ = .error "index out of bounds" := by
  refine ⟨(c3_pointer_amended _).1 rfl, ?_, ?_, ?_⟩
  · exact (c3_pointer_amended ⟨[0], 5, ⟨0, true⟩, [], []⟩).2.1 (by decide)
  · exact (c3_pointer_amended ⟨[0], 5, ⟨0, true⟩, [], []⟩).2.2.1
  · exact (c3_pointer_amended ⟨[0], 5, ⟨0, true⟩, [], []⟩).2.2.2 (by decide)

/-- C5: applying `ValueInc` 256 times in succession returns the cell to
its original value, and `ValueDec` is the exact inverse of `ValueInc` in
both orders, with wrapping modulo 256 and no overflow fault. -/
theorem c5_wraparound (st : ExecState) (v : Nat)
    (hget : memGet st = .ok v) (hv : v < 256) :
    exec 257 (List.replicate 256 .IncVal) st = .ok st ∧
    exec 3 [.IncVal, .DecVal] st = .ok st ∧
    exec 3 [.DecVal, .IncVal] st = .ok st := by
  obtain ⟨hlt, hvv⟩ := memGet_ok hget
  refine ⟨?_, ?_, ?_⟩
  · show exec (256 + 1) _ _ = _
    rw [exec_IncVal_iter 256 st v hget hv]
    rw [show (v + 256) % 256 = v by omega, ← hvv, set_get_self]
  · show exec (2 + 1) _ _ = _
    rw [exec_IncVal hget hlt]
    have hget2 : memGet { st with mem := st.mem.set st.ptr ((v + 1) % 256) }
        = .ok ((v + 1) % 256) := by
      simp [memGet, hlt, List.getElem_set]
    rw [show (2 : Nat) = 1 + 1 from rfl, exec_DecVal hget2 (by simpa using hlt), exec_nil]
    have harith : ((v + 1) % 256 + 255) % 256 = v := by
      rw [Nat.mod_add_mod]
      omega
    rw [List.set_set, harith, ← hvv, set_get_self]
  · show exec (2 + 1) _ _ = _
    rw [exec_DecVal hget hlt]
    have hget2 : memGet { st with mem := st.mem.set st.ptr ((v + 255) % 256) }
        = .ok ((v + 255) % 256) := by
      simp [memGet, hlt, List.getElem_set]
    rw [show (2 : Nat) = 1 + 1 from rfl, exec_IncVal hget2 (by simpa using hlt), exec_nil]
    have harith : ((v + 255) % 256 + 1) % 256 = v := by
      rw [Nat.mod_add_mod]
      omega
    rw [List.set_set, harith, ← hvv, set_get_self]

/-- C5 witness: the wraparound laws applied to the concrete single-cell
state holding 5. -/
theorem c5_wraparound_witness :
    memGet ⟨[5], 0, ⟨0, true⟩, [], []⟩ = .ok 5 ∧ (5 : Nat) < 256 ∧
    exec 257 (List.replicate 256 .IncVal) ⟨[5], 0, ⟨0, true⟩, [], []⟩
      = .ok ⟨[5], 0, ⟨0, true⟩, [], []⟩ ∧
    exec 3 [.IncVal, .DecVal] ⟨[5], 0, ⟨0, true⟩, [], []⟩
      = .ok ⟨[5], 0, ⟨0, true⟩, [], []⟩ ∧
    exec 3 [.DecVal, .IncVal] ⟨[5], 0, ⟨0, true⟩, [], []⟩
      = .ok ⟨[5], 0, ⟨0, true⟩, [], []⟩ := by
  have h := c5_wraparound ⟨[5], 0, ⟨0, true⟩, [], []⟩ 5 rfl (by decide)
  exact ⟨rfl, by decide, h.1, h.2.1, h.2.2⟩

/-- C6 counterexample: starting with a filled register (value 1) over a
zero cell, two `RegisterToggle` in a row change the observed cell from 0
to 1 and leave the register filled, not empty: the double toggle is not
an involution on the cell for every register state. -/
theorem c6_counterexample :
    exec 3 [.RegAccess, .RegAccess] ⟨[0], 0, ⟨1, false⟩, [], []⟩
      = .ok ⟨[1], 0, ⟨1, false⟩, [], []⟩ ∧ (1 : Nat) ≠ 0 ∧ false ≠ true :=
  ⟨rfl, by decide, by decide⟩

/-- C6 (amended): when the register is initially empty, applying
`RegisterToggle` twice in succession with no intervening mutation leaves
the tape (including the observed cell) and pointer unchanged and returns
the register to empty. -/
theorem c6_toggle_amended (st : ExecState) (v : Nat)
    (hreg : st.reg.empty = true) (hget : memGet st = .ok v) :
    exec 3 [.RegAccess, .RegAccess] st = .ok { st with reg := ⟨v, true⟩ } := by
  obtain ⟨hlt, hvv⟩ := memGet_ok hget
  show exec (2 + 1) _ _ = _
  rw [exec_RegAccess_empty hreg hget]
  rw [show (2 : Nat) = 1 + 1 from rfl, exec_RegAccess_full (by rfl) (by simpa using hlt),
    exec_nil]
  dsimp only
  rw [← hvv, set_get_self]

/-- C6 witness: the double toggle applied to the concrete single-cell
state holding 7 with an empty register. -/
theorem c6_toggle_witness :
    (⟨[7], 0, ⟨0, true⟩, [], []⟩ : ExecState).reg.empty = true ∧
    memGet ⟨[7], 0, ⟨0, true⟩, [], []⟩ = .ok 7 ∧
    exec 3 [.RegAccess, .RegAccess] ⟨[7], 0, ⟨0, true⟩, [], []⟩
      = .ok ⟨[7], 0, ⟨7, true⟩, [], []⟩ :=
  ⟨rfl, rfl, c6_toggle_amended ⟨[7], 0, ⟨0, true⟩, [], []⟩ 7 rfl rfl⟩

/-- C8: executing an `ExecCurrent` instruction is always fatal: for every
fuel, every following instruction sequence and every tape, pointer and
register state, the executor aborts with the unimplemented-operation
panic as soon as it reaches it. -/
theorem c8_execval_fatal (fuel : Nat) (rest : List Instruction) (st : ExecState) :
    exec (fuel + 1) (.ExecVal :: rest) st = .error "not yet implemented" := rfl

/-- C10: each of `ValueInc`, `ValueDec`, `ValueZero`, `ReadByte` and
`RegisterToggle` leaves the pointer unchanged and mutates the tape at
most at `set`-position `pointer` (the final conjunct: a `set` at the
pointer preserves every other position); `RegisterToggle` with an empty
register leaves the whole tape unchanged, mutating only the register. -/
theorem c10_frame (st : ExecState) (v : Nat) (hget : memGet st = .ok v) :
    exec 2 [.IncVal] st = .ok { st with mem := st.mem.set st.ptr ((v + 1) % 256) } ∧
    exec 2 [.DecVal] st = .ok { st with mem := st.mem.set st.ptr ((v + 255) % 256) } ∧
    exec 2 [.ZeroVal] st = .ok { st with mem := st.mem.set st.ptr 0 } ∧
    (∀ b bs, st.stdin = b :: bs →
      exec 2 [.Read] st = .ok { st with mem := st.mem.set st.ptr b, stdin := bs }) ∧
    (st.reg.empty = true →
      exec 2 [.RegAccess] st = .ok { st with reg := ⟨v, false⟩ }) ∧
    (st.reg.empty = false →
      exec 2 [.RegAccess] st
        = .ok { st with mem := st.mem.set st.ptr st.reg.value,
                        reg := ⟨st.reg.value, true⟩ }) ∧
    (∀ w j, j ≠ st.ptr → (st.mem.set st.ptr w).getD j 0 = st.mem.getD j 0) := by
  obtain ⟨hlt, hvv⟩ := memGet_ok hget
  refine ⟨?_, ?_, ?_, ?_, ?_, ?_, ?_⟩
  · rw [show (2 : Nat) = 1 + 1 from rfl, exec_IncVal hget hlt, exec_nil]
  · rw [show (2 : Nat) = 1 + 1 from rfl, exec_DecVal hget hlt, exec_nil]
  · rw [show (2 : Nat) = 1 + 1 from rfl, exec_ZeroVal hlt, exec_nil]
  · intro b bs hin
    rw [show (2 : Nat) = 1 + 1 from rfl, exec_Read hin hlt, exec_nil]
  · intro hreg
    rw [show (2 : Nat) = 1 + 1 from rfl, exec_RegAccess_empty hreg hget, exec_nil]
  · intro hreg
    rw [show (2 : Nat) = 1 + 1 from rfl, exec_RegAccess_full hreg hlt, exec_nil]
  · intro w j hj
    exact getD_set_ne st.mem st.ptr j w (Ne.symm hj)

/-- C10 witness: the frame facts applied to the concrete two-cell states
with empty and with filled register; cell 1 is untouched throughout. -/
theorem c10_frame_witness :
    memGet ⟨[1, 2], 0, ⟨0, true⟩, [9], []⟩ = .ok 1 ∧
    exec 2 [.IncVal] ⟨[1, 2], 0, ⟨0, true⟩, [9], []⟩
      = .ok ⟨[2, 2], 0, ⟨0, true⟩, [9], []⟩ ∧
    exec 2 [.Read] ⟨[1, 2], 0, ⟨0, true⟩, [9], []⟩
      = .ok ⟨[9, 2], 0, ⟨0, true⟩, [], []⟩ ∧
    exec 2 [.RegAccess] ⟨[1, 2], 0, ⟨0, true⟩, [9], []⟩
      = .ok ⟨[1, 2], 0, ⟨1, false⟩, [9], []⟩ ∧
    exec 2 [.RegAccess] ⟨[1, 2], 0, ⟨7, false⟩, [9], []⟩
      = .ok ⟨[7, 2], 0, ⟨7, true⟩, [9], []⟩ ∧
    ([1, 2].set 0 99).getD 1 0 = [1, 2].getD 1 0 := by
  refine ⟨rfl, ?_, ?_, ?_, ?_, ?_⟩
  · exact (c10_frame ⟨[1, 2], 0, ⟨0, true⟩, [9], []⟩ 1 rfl).1
  · exact (c10_frame ⟨[1, 2], 0, ⟨0, true⟩, [9], []⟩ 1 rfl).2.2.2.1 9 [] rfl
  · exact (c10_frame ⟨[1, 2], 0, ⟨0, true⟩, [9], []⟩ 1 rfl).2.2.2.2.1 rfl
  · exact (c10_frame ⟨[1, 2], 0, ⟨7, false⟩, [9], []⟩ 1 rfl).2.2.2.2.2.1 rfl
  · exact (c10_frame ⟨[1, 2], 0, ⟨0, true⟩, [9], []⟩ 1 rfl).2.2.2.2.2.2 99 1 (by decide)

/-- Evaluation of the executor on the instruction sequence of concrete
scenario A (three `ValueInc` then `WriteByte`) over any tape whose first
cell is 0: the cell becomes 3 and the decimal rendering "3" (the single
byte 51) is written. -/
theorem exec_mooWrite_key :
    ∀ (m : List Nat), m.get? 0 = some 0 →
      exec 9 [Instruction.IncVal, Instruction.IncVal, Instruction.IncVal, Instruction.Write]
        ⟨m, 0, ⟨0, true⟩, [], []⟩
      = .ok ⟨m.set 0 3, 0, ⟨0, true⟩, [], [51]⟩ := by
  intro m hm
  obtain ⟨hlt, hm0⟩ := List.get?_eq_some.mp hm
  have hget0 : memGet ⟨m, 0, ⟨0, true⟩, [], []⟩ = .ok 0 := by
    simp [memGet, hlt]
    exact hm0
  rw [show (9 : Nat) = 8 + 1 from rfl, exec_IncVal hget0 hlt]
  dsimp only
  rw [show (0 + 1) % 256 = 1 from rfl]
  have hget1 : memGet ⟨m.set 0 1, 0, ⟨0, true⟩, [], []⟩ = .ok 1 := by
    simp [memGet, hlt, List.get_eq_getElem, List.getElem_set]
  rw [show (8 : Nat) = 7 + 1 from rfl, exec_IncVal hget1 (by simpa using hlt)]
  dsimp only
  rw [show (1 + 1) % 256 = 2 from rfl, List.set_set]
  have hget2 : memGet ⟨m.set 0 2, 0, ⟨0, true⟩, [], []⟩ = .ok 2 := by
    simp [memGet, hlt, List.get_eq_getElem, List.getElem_set]
  rw [show (7 : Nat) = 6 + 1 from rfl, exec_IncVal hget2 (by simpa using hlt)]
  dsimp only
  rw [show (2 + 1) % 256 = 3 from rfl, List.set_set]
  have hget3 : memGet ⟨m.set 0 3, 0, ⟨0, true⟩, [], []⟩ = .ok 3 := by
    simp [memGet, hlt, List.get_eq_getElem, List.getElem_set]
  rw [show (6 : Nat) = 5 + 1 from rfl, exec_Write hget3]
  dsimp only
  rw [show (5 : Nat) = 4 + 1 from rfl, exec_nil]
  have hdec : decOut 3 = [51] := by decide
  rw [hdec, List.nil_append]

/-- The full pipeline on the source text of concrete scenario A: it halts
normally with cell 0 at 3 and the single output byte 51. -/
theorem run_mooWrite_eval :
    run 9 "MoO MoO MoO OOM".toList []
      = .ok ⟨(List.replicate MEM_SIZE 0).set 0 3, 0, ⟨0, true⟩, [], [51]⟩ := by
  have hlex : lex "MoO MoO MoO OOM".toList
      = [Command.IncVal, Command.IncVal, Command.IncVal, Command.Write] := by decide
  have hparse : parse [Command.IncVal, Command.IncVal, Command.IncVal, Command.Write]
      = .ok [Instruction.IncVal, Instruction.IncVal, Instruction.IncVal,
          Instruction.Write] := by
    rw [parse_def, pg0_simple (by rfl) (by rfl), pg0_simple (by rfl) (by rfl),
      pg0_simple (by rfl) (by rfl), pg0_simple (by rfl) (by rfl), pg_none (by rfl)]
    rfl
  rw [run, runCommands, hlex, hparse]
  exact exec_mooWrite_key (List.replicate MEM_SIZE 0) rfl

/-- C2 counterexample: running `"MoO MoO MoO OOM"` against the fresh
state does not write the raw byte 3: the output stream is the single
byte 51 (the ASCII digit written by the decimal formatter), not the
single byte 3. -/
theorem c2_counterexample :
    Except.map ExecState.output (run 9 "MoO MoO MoO OOM".toList []) = .ok [51] ∧
    ([51] : List Nat) ≠ [3] := by
  refine ⟨?_, by decide⟩
  rw [run_mooWrite_eval]
  rfl

/-- C2 (amended): running the program whose source text is
`"MoO MoO MoO OOM"` against a freshly zeroed tape at pointer 0 halts
normally with cell 0 holding 3, and writes exactly the decimal rendering
of the value 3 to standard output: the one byte 51, the ASCII digit
`'3'`, not the raw byte 3. -/
theorem c2_scenarioA_amended :
    run 9 "MoO MoO MoO OOM".toList []
      = .ok ⟨(List.replicate MEM_SIZE 0).set 0 3, 0, ⟨0, true⟩, [], [51]⟩ ∧
    decOut 3 = [51] ∧ (51 : Nat) = ('3' : Char).toNat :=
  ⟨run_mooWrite_eval, by decide, by decide⟩

/-- C7: for every source text all of whose whitespace-separated tokens
match none of the twelve opcode strings, the lexer produces an empty
opcode sequence with no error, the parser produces an empty tree, and
the whole pipeline halts normally with the fresh state untouched (no
tape mutation, no pointer motion, no register change, no I/O). -/
theorem c7_noise_only (src : List Char)
    (hnone : ∀ t ∈ splitTokens src, commandOfToken t = none) :
    lex src = [] ∧ parse (lex src) = .ok [] ∧
    ∀ (fuel : Nat) (stdin : List Nat), run (fuel + 1) src stdin = .ok (initState stdin) := by
  have hlex : lex src = [] := by
    rw [lex]
    exact List.filterMap_eq_nil.mpr hnone
  refine ⟨hlex, ?_, ?_⟩
  · rw [hlex, parse_def, pg_none (by rfl)]
  · intro fuel stdin
    rw [run, runCommands, hlex, parse_def, pg_none (by rfl)]
    exact exec_nil fuel (initState stdin)

/-- C7 witness: the no-side-effects theorem applied to a concrete source
text of plain commentary. -/
theorem c7_noise_only_witness :
    (∀ t ∈ splitTokens "this is a comment".toList, commandOfToken t = none) ∧
    lex "this is a comment".toList = [] ∧
    parse (lex "this is a comment".toList) = .ok [] ∧
    ∀ (fuel : Nat) (stdin : List Nat),
      run (fuel + 1) "this is a comment".toList stdin = .ok (initState stdin) := by
  refine ⟨by decide, ?_, ?_, ?_⟩
  · exact (c7_noise_only _ (by decide)).1
  · exact (c7_noise_only _ (by decide)).2.1
  · exact (c7_noise_only _ (by decide)).2.2

end Cower
